import Mathlib

/-!
Verification of the chess-bot orchestration code: a shallow embedding of the
time-management function, the active-game registry, the FEN normalizer, the
multi-book move chooser, the retry layer, the challenge-admission policy and
the move-pipeline dispatch, together with theorems settling the specified
properties.

Conventions of the embedding:
* Python floats are modelled as rationals; the uniform random jitter drawn by
  the time manager is passed in as an explicit parameter.
* Python strings are modelled as Lean `String` where only equality and
  lowercasing matter, and as `List Char` where the code splits on whitespace.
* The mutable module-level registries become explicit state arguments.
-/

namespace ICBMBot

/-! ## Time management (compute_time_management.py, compute_movetime) -/

/-- Embedding of `compute_movetime`.  The code draws
`jitter = random.uniform(0.85, 1.15)`; here the draw is the parameter `j`. -/
def compute_movetime (remaining_time_s increment_s : ℚ) (ply : Int)
    (in_check forced : Bool) (base_minutes : Int) (j : ℚ) : ℚ :=
  let T := max 0 remaining_time_s
  let I := max 0 increment_s
  let P := max 0 ply
  let safe_bank := 3 + 1 * I
  if T ≤ safe_bank then
    max 0.2 (T * 0.25)
  else
    let RM : ℚ := if base_minutes ≥ 15 then 35 else if base_minutes ≥ 5 then 25 else 15
    let pool := (T - safe_bank) + 0.5 * I * RM
    let budget0 := pool / RM
    let budget1 := if P < 20 then budget0 * 1.5 else if P < 60 then budget0 * 1.2
      else budget0 * 1
    let budget2 := if in_check then budget1 * 1.3 else budget1
    let budget3 := if forced then budget2 * 0.7 else budget2
    let budget4 := min budget3 (T - safe_bank)
    let budget5 := min budget4 60
    let budget6 := max budget5 2
    budget6 * j

/-! ## Active-game registry (trash_bot.py, claim_game / remove_active) -/

/-- Embedding of `claim_game`: atomically mark `gid` active; the Bool is the
return value (`True` exactly when this call claimed the id). -/
def claim_game (active : Finset String) (gid : String) : Bool × Finset String :=
  if gid ∈ active then (false, active) else (true, insert gid active)

/-- Embedding of `remove_active`. -/
def remove_active (active : Finset String) (gid : String) : Finset String :=
  active.erase gid

/-- A sequence of `n` consecutive `claim_game gid` calls with no intervening
`remove_active gid`; returns the list of returned Booleans and the final
registry. -/
def claimSeq (active : Finset String) (gid : String) : Nat → List Bool × Finset String
  | 0 => ([], active)
  | n + 1 =>
    let r := claim_game active gid
    let rest := claimSeq r.2 gid n
    (r.1 :: rest.1, rest.2)

/-! ## Network resilience layer (trash_bot.py, _retry_call) -/

/-- The error information `_retry_call` inspects: whether the exception is a
berserk `ApiError` or `ResponseError`, whether its string contains "429",
whether `_is_transient_net_err` classifies it as transient, and the parsed
Retry-After header value when present. -/
structure NetErr where
  isApiErr : Bool
  has429 : Bool
  isTransient : Bool
  retryAfter : Option Nat
deriving DecidableEq

/-- One invocation of the wrapped function either returns a value or throws. -/
inductive CallOutcome where
  | ok (v : Nat)
  | err (e : NetErr)
deriving DecidableEq

/-- How `_retry_call` terminates: returning the value, raising the terminal
RuntimeError after exceeding the retry budget, re-raising the original error,
or still looping when the supplied outcome trace ran out. -/
inductive RetryResult where
  | ok (v : Nat)
  | exhausted
  | raised (e : NetErr)
  | pending
deriving DecidableEq

/-- Default of env var MAX_NET_RETRIES. -/
def MAX_NET_RETRIES : Nat := 6

/-- Default of env var RECONNECT_DELAY_SEC, in seconds. -/
def RECONNECT_DELAY_SEC : ℚ := 5

/-- The code treats an error as a rate-limit signal when it is an
ApiError/ResponseError whose string contains "429". -/
def isRateLimitSignal (e : NetErr) : Bool := e.isApiErr && e.has429

/-- A transient network error that is not a rate-limit signal. -/
def transientNetErr : NetErr := ⟨false, false, true, none⟩

/-- A 429 rate-limit error with no Retry-After header. -/
def rateLimitErr : NetErr := ⟨true, true, false, none⟩

/-- A 429 rate-limit error carrying a Retry-After header. -/
def rateLimitErrWith (ra : Nat) : NetErr := ⟨true, true, false, some ra⟩

/-- Embedding of the `_retry_call` loop, run against a trace of outcomes of
the successive invocations of `fn`; `attempt` and `backoff` are the loop
variables (`attempt`, `backoff_429`).  Returns how the loop ends and the list
of sleep durations (seconds) performed. -/
def retryRun : List CallOutcome → Nat → Nat → RetryResult × List ℚ
  | [], _, _ => (RetryResult.pending, [])
  | CallOutcome.ok v :: _, _, _ => (RetryResult.ok v, [])
  | CallOutcome.err e :: rest, attempt, backoff =>
    if e.isApiErr && e.has429 then
      let ra := e.retryAfter.getD backoff
      let r := retryRun rest attempt (min (backoff * 2) 1800)
      (r.1, (ra : ℚ) :: r.2)
    else if e.isTransient then
      if MAX_NET_RETRIES < attempt + 1 then (RetryResult.exhausted, [])
      else
        let r := retryRun rest (attempt + 1) backoff
        (r.1, RECONNECT_DELAY_SEC :: r.2)
    else (RetryResult.raised e, [])

/-- Embedding of `_retry_call`: the loop starts with `attempt = 0` and
`backoff_429 = 60`. -/
def retry_call (outs : List CallOutcome) : RetryResult × List ℚ :=
  retryRun outs 0 60

/-- Python str.lower for ASCII letters (the identifiers the code lowercases
are ASCII). -/
def charLower (c : Char) : Char :=
  if 'A' ≤ c ∧ c ≤ 'Z' then Char.ofNat (c.toNat + 32) else c

/-- Python str.lower on a whole string. -/
def pyLower (s : String) : String := String.mk (s.data.map charLower)

/-- Admission-policy configuration: the env-derived globals that
`acceptable_challenge` consults. -/
structure AdmissionConfig where
  acceptVariantStandard : Bool
  acceptNonrated : Bool
  acceptMinBaseSeconds : Int
  allowHumans : Bool
  myBotId : String
deriving DecidableEq

/-- The fields of the challenge event payload that `acceptable_challenge`
reads; absent keys are `none`. -/
structure Challenge where
  variantKey : Option String
  timeLimit : Option Int
  rated : Bool
  challengerTitle : Option String
  challengerId : Option String
  destId : Option String
  status : Option String
deriving DecidableEq

/-- Embedding of `acceptable_challenge`. -/
def acceptable_challenge (cfg : AdmissionConfig) (ch : Challenge) : Bool :=
  if cfg.acceptVariantStandard && !(ch.variantKey == some "standard") then false
  else
    let limit := ch.timeLimit.getD 0
    if !cfg.acceptNonrated && !ch.rated then false
    else if limit < cfg.acceptMinBaseSeconds then false
    else
      let is_bot := ch.challengerTitle == some "BOT"
      if !cfg.allowHumans && !is_bot then false
      else
        let challenger_id := pyLower (ch.challengerId.getD "")
        let dest_id := pyLower (ch.destId.getD "")
        if challenger_id == cfg.myBotId || !(dest_id == cfg.myBotId) then false
        else
          let status := pyLower (ch.status.getD "")
          if !(status == "") && !(status == "created" || status == "pending")
          then false
          else true

/-! ## FEN normalization (trash_bot.py, normalize_fen) -/

/-- Python `str.split()` restricted to the space character (the whitespace
occurring in FEN strings): split on runs of spaces, dropping empty tokens;
`acc` holds the characters of the current token in reverse. -/
def splitWSAux : List Char → List Char → List (List Char)
  | [], acc => if acc = [] then [] else [acc.reverse]
  | c :: rest, acc =>
    if c = ' ' then
      if acc = [] then splitWSAux rest []
      else acc.reverse :: splitWSAux rest []
    else splitWSAux rest (c :: acc)

/-- Python `fen.strip().split()` on space-separated input (the strip is
subsumed: leading and trailing separators produce no tokens). -/
def splitWS (s : List Char) : List (List Char) := splitWSAux s []

/-- Python `" ".join(tokens)`. -/
def joinSpace : List (List Char) → List Char
  | [] => []
  | [t] => t
  | t :: ts => t ++ ' ' :: joinSpace ts

/-- Python `re.fullmatch(r"[a-h][36]", ep)` as a Boolean. -/
def validEp (ep : List Char) : Bool :=
  match ep with
  | [f, r] => decide ('a' ≤ f) && decide (f ≤ 'h') && (r == '3' || r == '6')
  | _ => false

/-- Embedding of `normalize_fen`: keep board layout, side to move, castling
rights and a sanitized en-passant field; `none` models the ValueError raised
when fewer than four fields are present. -/
def normalize_fen (fen : List Char) : Option (List Char) :=
  match splitWS fen with
  | board :: turn :: castling :: ep :: _ =>
    let ep2 := if ep ≠ ['-'] ∧ validEp ep = false then ['-'] else ep
    some (joinSpace [board, turn, castling, ep2])
  | _ => none

/-! ## Multi-book move chooser (trash_bot.py, _find_book_move, the
best_move policy) -/

/-- A UCI move encoding, as a character list (Python strings compare
lexicographically). -/
abbrev Uci := List Char

/-- One consulted opening book: the (move, weight) entries its reader yields
for the current position, in reader order; a missing or failing reader
contributes the empty list. -/
abbrev Book := List (Uci × Int)

/-- Lexicographic strict order on character lists: Python string `<`,
comparing the sort key's final component. -/
def uciLt : List Char → List Char → Bool
  | [], [] => false
  | [], _ :: _ => true
  | _ :: _, [] => false
  | a :: as, b :: bs =>
    if a < b then true else if b < a then false else uciLt as bs

/-- All candidate triples (move, weight, book index) the best_move policy
iterates over, books in list order. -/
def bookTriples (books : List Book) : List (Uci × Int × Nat) :=
  books.enum.flatMap (fun p => p.2.map (fun e => (e.1, e.2, p.1)))

/-- One update of the candidates dict: keep the heaviest weight for a move,
tie-broken by the earlier book (the source updates when `w > cur[0]` or
`w == cur[0] and idx < cur[1]`); a fresh move is appended. -/
def candInsert (cands : List (Uci × Int × Nat)) (u : Uci) (w : Int)
    (i : Nat) : List (Uci × Int × Nat) :=
  match cands.find? (fun e => e.1 == u) with
  | none => cands ++ [(u, w, i)]
  | some c =>
    if c.2.1 < w ∨ (w = c.2.1 ∧ i < c.2.2) then
      cands.map (fun e => if e.1 == u then (u, w, i) else e)
    else cands

/-- The candidates dict after folding all triples of all books. -/
def candsOfBooks (books : List Book) : List (Uci × Int × Nat) :=
  (bookTriples books).foldl (fun cs t => candInsert cs t.1 t.2.1 t.2.2) []

/-- The comparison underlying `sorted(..., key=lambda kv: (-weight, idx,
uci))`: true when `a` sorts strictly before `b`. -/
def keyLtB (a b : Int × Nat × Uci) : Bool :=
  decide (b.1 < a.1) ||
    (decide (a.1 = b.1) &&
      (decide (a.2.1 < b.2.1) ||
        (decide (a.2.1 = b.2.1) && uciLt a.2.2 b.2.2)))

/-- The sort key of a candidates entry. -/
def ckey (e : Uci × Int × Nat) : Int × Nat × Uci := (e.2.1, e.2.2, e.1)

/-- The head of the sorted candidate list: an entry with the least key. -/
def pickBest : List (Uci × Int × Nat) → Option (Uci × Int × Nat)
  | [] => none
  | x :: xs =>
    some (xs.foldl
      (fun best e => if keyLtB (ckey e) (ckey best) then e else best) x)

/-- Embedding of `_find_book_move` under the best_move policy. -/
def _find_book_move (books : List Book) : Option Uci :=
  (pickBest (candsOfBooks books)).map (fun e => e.1)

/-- The move `u` appears in the triple list `L` with maximal weight `w`,
first attained at book index `i`: the specified reduced view of the union of
all books. -/
def bestCand (L : List (Uci × Int × Nat)) (u : Uci) (w : Int) (i : Nat) :
    Prop :=
  (u, w, i) ∈ L ∧ ∀ w' i', (u, w', i') ∈ L → w' < w ∨ (w' = w ∧ i ≤ i')

/-! ## Move decision pipeline (trash_bot.py, safe_make_move) -/

/-- Oracles for the engine, book and endgame-table consultations performed by
`safe_make_move` on one move.  For the two `engine.play` probes, `none`
models a raised exception and `some none` a reply carrying no move. -/
structure MoveEnv where
  probeTiny : Option (Option String)
  probePanic : Option (Option String)
  legalMoves : List String
  curPly : Int
  bookMove : Option String
  tbMove : Option String
  searchMove : Option String
deriving DecidableEq

/-- The externally visible action `safe_make_move` ends with: a move
submission tagged with the pipeline step that produced it, or a resignation. -/
inductive MoveAction where
  | micro (tag : String) (m : String)
  | resignNoMove (tag : String)
  | panic (m : String)
  | book (m : String)
  | table (m : String)
  | search (m : String)
  | resignNoSearchMove
deriving DecidableEq

/-- Default of env var BOOK_PLIES. -/
def BOOK_PLIES : Int := 82323232323232323

/-- Embedding of `_micro_fallback_move`: a tiny-node engine probe, falling
back to the first legal move when the probe raises, resigning when no move
results. -/
def _micro_fallback_move (env : MoveEnv) (tag : String) : MoveAction :=
  let mv := match env.probeTiny with
    | some r => r
    | none => env.legalMoves.head?
  match mv with
  | none => MoveAction.resignNoMove tag
  | some m => MoveAction.micro tag m

/-- Embedding of the branch dispatch of `safe_make_move`: panic tiers, then
book, then endgame-table probe, then normal search; `my_ms` is the remaining
clock in milliseconds (absent when unknown). -/
def safe_make_move (my_ms : Option Int) (env : MoveEnv) : MoveAction :=
  let sec_left : Option ℚ := match my_ms with
    | some v => some (max 0 ((v : ℚ) / 1000))
    | none => none
  let ultra_panic := match sec_left with
    | some s => decide (s ≤ 2)
    | none => false
  let hard_panic := match sec_left with
    | some s => decide (s ≤ 12)
    | none => false
  if ultra_panic then _micro_fallback_move env "ultra"
  else if hard_panic then
    match env.probePanic with
    | none => _micro_fallback_move env "panic"
    | some none => _micro_fallback_move env "panic-empty"
    | some (some m) => MoveAction.panic m
  else
    let bookmv := if env.curPly ≤ BOOK_PLIES then env.bookMove else none
    match bookmv with
    | some m => MoveAction.book m
    | none =>
      match env.tbMove with
      | some m => MoveAction.table m
      | none =>
        match env.searchMove with
        | some m => MoveAction.search m
        | none => MoveAction.resignNoSearchMove

/-! ## Outgoing-challenge bookkeeping (trash_bot.py, should_challenge,
challenge_bot, add_pending, mark_challenged, challenger_loop) -/

/-- The shared outgoing-challenge registries: the pending-challenge map
(lower-cased opponent to first-sent timestamp) and the last-challenged map
(lower-cased opponent to last-attempt timestamp). -/
structure OutState where
  pending : List (String × ℚ)
  lastChallenged : List (String × ℚ)
deriving DecidableEq

/-- Default of env var MAX_OUTGOING_CHALLENGES. -/
def MAX_OUTGOING_CHALLENGES : Nat := 1

/-- Default of env var RECHALLENGE_COOLDOWN, in seconds. -/
def RECHALLENGE_COOLDOWN : ℚ := 900

/-- Dict assignment on an association list: replace the binding of `k` or
append a fresh one. -/
def dictSet (l : List (String × ℚ)) (k : String) (v : ℚ) : List (String × ℚ) :=
  if (l.find? (fun p => p.1 == k)).isSome then
    l.map (fun p => if p.1 == k then (k, v) else p)
  else l ++ [(k, v)]

/-- Embedding of `add_pending` (defined in the source, with the lock
decorator, but never invoked from any code path). -/
def add_pending (st : OutState) (u : String) (now : ℚ) : OutState :=
  { st with pending := dictSet st.pending (pyLower u) now }

/-- Embedding of `mark_challenged` (defined in the source but never invoked
from any code path). -/
def mark_challenged (st : OutState) (u : String) (now : ℚ) : OutState :=
  { st with lastChallenged := dictSet st.lastChallenged (pyLower u) now }

/-- Embedding of `should_challenge`; `ratingOk` abstracts the rating gate
(cached rating known and at least MIN_CHALLENGE_RATING). -/
def should_challenge (st : OutState) (username : String) (now : ℚ)
    (ratingOk : Bool) : Bool :=
  let u := pyLower username
  if MAX_OUTGOING_CHALLENGES ≤ st.pending.length then false
  else if (st.pending.find? (fun p => p.1 == u)).isSome then false
  else
    match (st.lastChallenged.find? (fun p => p.1 == u)).map (fun p => p.2) with
    | some last => if now - last < RECHALLENGE_COOLDOWN then false else ratingOk
    | none => ratingOk

/-- Embedding of `challenge_bot`: it issues the network challenge (with retry
and error swallowing) but performs no registry bookkeeping — the source never
calls `add_pending` or `mark_challenged`. -/
def challenge_bot (st : OutState) (_username : String) : OutState := st

/-- Embedding of the per-candidate dispatch step of `challenger_loop`:
challenge the candidate when `should_challenge` allows it. -/
def dispatch_challenge (st : OutState) (username : String) (now : ℚ)
    (ratingOk : Bool) : OutState :=
  if should_challenge st username now ratingOk then challenge_bot st username
  else st

/-- The 429 backoff variable after `k` doubling steps capped at 1800. -/
def backoffIter (b : Nat) : Nat → Nat
  | 0 => b
  | k + 1 => backoffIter (min (b * 2) 1800) k

/-- The sleeps performed by `k` headerless 429 retries starting at backoff
`b`. -/
def sleeps429 (b : Nat) : Nat → List ℚ
  | 0 => []
  | k + 1 => (b : ℚ) :: sleeps429 (min (b * 2) 1800) k

end ICBMBot

namespace ICBMBot

/-! ## Theorems: time management -/

/-- Helper: the sudden-death branch is taken whenever `rem ≤ 3 + inc`. -/
theorem compute_movetime_sudden_eq (rem inc : ℚ) (ply : Int) (c f : Bool)
    (b : Int) (j : ℚ) (h : rem ≤ 3 + inc) :
    compute_movetime rem inc ply c f b j = max 0.2 (max 0 rem * 0.25) := by
  unfold compute_movetime
  have hbank : max 0 rem ≤ 3 + 1 * max 0 inc := by
    rcases le_total rem 0 with h0 | h0
    · have : max 0 rem = 0 := max_eq_left h0
      rw [this]
      have : (0:ℚ) ≤ max 0 inc := le_max_left 0 inc
      linarith
    · have h1 : max 0 rem = rem := max_eq_right h0
      have h2 : inc ≤ max 0 inc := le_max_right 0 inc
      rw [h1]; linarith
  simp only [hbank, if_true]

/-- C2 (amended): in the sudden-death branch the function returns a quarter of
the (nonnegative part of the) remaining time floored at 0.2 seconds; the
output is at most `remaining * 0.25` whenever `remaining ≥ 0.8`. -/
theorem sudden_death_quarter (rem inc : ℚ) (ply : Int) (c f : Bool)
    (b : Int) (j : ℚ) (h : rem ≤ 3 + inc) :
    compute_movetime rem inc ply c f b j = max 0.2 (max 0 rem * 0.25) ∧
      (0.8 ≤ rem → compute_movetime rem inc ply c f b j = rem * 0.25 ∧
        compute_movetime rem inc ply c f b j ≤ rem * 0.25) := by
  refine ⟨compute_movetime_sudden_eq rem inc ply c f b j h, fun h8 => ?_⟩
  have h0 : (0:ℚ) ≤ rem := by linarith
  have hmax : max 0 rem = rem := max_eq_right h0
  have hq : (0.2:ℚ) ≤ rem * 0.25 := by nlinarith
  rw [compute_movetime_sudden_eq rem inc ply c f b j h, hmax, max_eq_right hq]
  exact ⟨rfl, le_refl _⟩

/-- Witness for `sudden_death_quarter` at remaining 2s, increment 0. -/
theorem sudden_death_quarter_witness :
    compute_movetime 2 0 0 false false 15 1 = max 0.2 (max 0 2 * 0.25) ∧
      (0.8 ≤ (2:ℚ) → compute_movetime 2 0 0 false false 15 1 = 2 * 0.25 ∧
        compute_movetime 2 0 0 false false 15 1 ≤ 2 * 0.25) :=
  sudden_death_quarter 2 0 0 false false 15 1 (by norm_num)

/-- C2 counterexample: with 0.4s remaining and no increment the function
returns 0.2, which exceeds `remaining * 0.25 = 0.1`; so the output is not
always a quarter of the remaining time. -/
theorem sudden_death_quarter_cex :
    compute_movetime 0.4 0 0 false false 15 1 = 0.2 ∧
      ¬ compute_movetime 0.4 0 0 false false 15 1 ≤ 0.4 * 0.25 := by
  have h : compute_movetime 0.4 0 0 false false 15 1 = max 0.2 (max 0 0.4 * 0.25) :=
    compute_movetime_sudden_eq 0.4 0 0 false false 15 1 (by norm_num)
  rw [h]
  norm_num

/-- Helper: a value clamped below at 2 and multiplied by at most 1.15 stays
below 1.15 times the max of 2 and any upper bound of the unclamped value. -/
theorem clamp_mul_le (m c j : ℚ) (hm : m ≤ c) (hj : j ≤ 1.15) :
    max m 2 * j ≤ 1.15 * max 2 c := by
  have h1 : max m 2 ≤ max 2 c :=
    max_le (le_trans hm (le_max_right 2 c)) (le_max_left 2 c)
  have h2 : (0:ℚ) ≤ max m 2 := le_trans (by norm_num) (le_max_right m 2)
  calc max m 2 * j ≤ max m 2 * 1.15 := by nlinarith
    _ ≤ max 2 c * 1.15 := by nlinarith
    _ = 1.15 * max 2 c := by ring

/-- Helper: a value clamped below at 2 and multiplied by at least 0.85 stays
at least 1.7. -/
theorem clamp_mul_ge (m j : ℚ) (hj : 0.85 ≤ j) : 1.7 ≤ max m 2 * j := by
  have h2 : (2:ℚ) ≤ max m 2 := le_max_right m 2
  nlinarith

/-- C3 (amended): above the bank, the returned budget never exceeds
`1.15 * max 2 (remaining - (3 + increment))`; the pre-jitter budget is capped
at `remaining - bank` but then floored at 2.0, and the jitter can scale the
result by up to 1.15, so the bound `remaining - bank` itself does not hold. -/
theorem normal_branch_bound (rem inc : ℚ) (ply : Int) (c f : Bool)
    (b : Int) (j : ℚ) (hinc : 0 ≤ inc) (hT : 3 + inc < rem)
    (hj1 : 0.85 ≤ j) (hj2 : j ≤ 1.15) :
    compute_movetime rem inc ply c f b j ≤ 1.15 * max 2 (rem - (3 + inc)) := by
  have hrem0 : (0:ℚ) ≤ rem := by linarith
  have hTeq : max 0 rem = rem := max_eq_right hrem0
  have hIeq : max 0 inc = inc := max_eq_right hinc
  have hcond : ¬ rem ≤ 3 + 1 * inc := by rw [one_mul]; linarith
  simp only [compute_movetime, hTeq, hIeq]
  rw [if_neg hcond]
  refine clamp_mul_le _ _ _ ?_ hj2
  refine le_trans (min_le_left _ _) (le_trans (min_le_right _ _) ?_)
  rw [one_mul]

/-- Witness for `normal_branch_bound` at remaining 10s, increment 0. -/
theorem normal_branch_bound_witness :
    compute_movetime 10 0 0 false false 15 1 ≤ 1.15 * max 2 (10 - (3 + 0)) :=
  normal_branch_bound 10 0 0 false false 15 1 (by norm_num) (by norm_num)
    (by norm_num) (by norm_num)

/-- C3 counterexample: with remaining 4s, increment 0 (so bank 3) and jitter 1
the function returns 2.0, which exceeds `remaining - bank = 1`: the 2-second
floor is applied after the never-spend-the-bank clamp. -/
theorem normal_branch_bound_cex :
    compute_movetime 4 0 0 false false 15 1 = 2 ∧
      ¬ compute_movetime 4 0 0 false false 15 1 ≤ 4 - (3 + 0) := by
  norm_num [compute_movetime, min_def, max_def]

/-- C10: for every input, including negative times, increments and plies, and
every jitter draw in `[0.85, 1.15]`, the function returns a strictly positive
value of at least 0.2 seconds. -/
theorem compute_movetime_min_output (rem inc : ℚ) (ply : Int) (c f : Bool)
    (b : Int) (j : ℚ) (hj1 : 0.85 ≤ j) (hj2 : j ≤ 1.15) :
    0.2 ≤ compute_movetime rem inc ply c f b j ∧
      0 < compute_movetime rem inc ply c f b j := by
  simp only [compute_movetime]
  by_cases hb : max 0 rem ≤ 3 + 1 * max 0 inc
  · rw [if_pos hb]
    refine ⟨le_max_left _ _, lt_of_lt_of_le (by norm_num) (le_max_left _ _)⟩
  · rw [if_neg hb]
    constructor
    · exact le_trans (by norm_num) (clamp_mul_ge _ j hj1)
    · exact lt_of_lt_of_le (by norm_num) (clamp_mul_ge _ j hj1)

/-- Witness for `compute_movetime_min_output` at negative inputs. -/
theorem compute_movetime_min_output_witness :
    0.2 ≤ compute_movetime (-5) (-1) (-3) true true 0 1 ∧
      0 < compute_movetime (-5) (-1) (-3) true true 0 1 :=
  compute_movetime_min_output (-5) (-1) (-3) true true 0 1 (by norm_num)
    (by norm_num)

/-! ## Theorems: active-game registry deduplication -/

/-- Helper: once `gid` is in the registry, every further claim fails and
leaves the registry unchanged. -/
theorem claimSeq_of_mem (gid : String) (s : Finset String) (hm : gid ∈ s) :
    ∀ n, claimSeq s gid n = (List.replicate n false, s) := by
  intro n
  induction n with
  | zero => rfl
  | succ m ih =>
    simp only [claimSeq, claim_game, if_pos hm, ih, List.replicate_succ]

/-- C1: starting from a registry not containing `gid`, among `n ≥ 1`
consecutive `claim_game gid` calls exactly one returns True; the final
registry is the original plus `gid`; a call returning False leaves the
registry unchanged and a call returning True adds `gid`. -/
theorem claim_game_dedup (active s : Finset String) (gid : String) (n : Nat)
    (h : gid ∉ active) (hn : 1 ≤ n) :
    (claimSeq active gid n).1.count true = 1 ∧
      (claimSeq active gid n).2 = insert gid active ∧
      ((claim_game s gid).1 = false → (claim_game s gid).2 = s) ∧
      ((claim_game s gid).1 = true → gid ∉ s ∧
        (claim_game s gid).2 = insert gid s) := by
  obtain ⟨m, rfl⟩ : ∃ m, n = m + 1 := ⟨n - 1, (Nat.succ_pred_eq_of_pos hn).symm⟩
  have hfirst : claim_game active gid = (true, insert gid active) := by
    simp only [claim_game, if_neg h]
  have hrest := claimSeq_of_mem gid (insert gid active)
    (Finset.mem_insert_self gid active) m
  refine ⟨?_, ?_, ?_, ?_⟩
  · simp only [claimSeq, hfirst, hrest, List.count_cons, List.count_replicate]
    simp
  · simp only [claimSeq, hfirst, hrest]
  · intro hf
    by_cases hm : gid ∈ s
    · simp only [claim_game, if_pos hm]
    · simp only [claim_game, if_neg hm] at hf ⊢
      exact absurd hf (by simp)
  · intro ht
    by_cases hm : gid ∈ s
    · simp only [claim_game, if_pos hm] at ht
      exact absurd ht (by simp)
    · simp only [claim_game, if_neg hm]
      exact ⟨hm, trivial⟩

/-- Witness for `claim_game_dedup` with an empty registry and three calls. -/
theorem claim_game_dedup_witness :
    (claimSeq ∅ "g" 3).1.count true = 1 ∧
      (claimSeq ∅ "g" 3).2 = insert "g" ∅ ∧
      ((claim_game {"x"} "g").1 = false → (claim_game {"x"} "g").2 = {"x"}) ∧
      ((claim_game {"x"} "g").1 = true → "g" ∉ ({"x"} : Finset String) ∧
        (claim_game {"x"} "g").2 = insert "g" {"x"}) :=
  claim_game_dedup ∅ {"x"} "g" 3 (Finset.not_mem_empty "g") (by norm_num)

/-! ## Theorems: network resilience layer -/

/-- Helper: one transient failure within the retry budget sleeps the fixed
delay and advances the attempt counter. -/
theorem retryRun_cons_transient (rest : List CallOutcome) (attempt backoff : Nat)
    (h : ¬ MAX_NET_RETRIES < attempt + 1) :
    retryRun (CallOutcome.err transientNetErr :: rest) attempt backoff =
      ((retryRun rest (attempt + 1) backoff).1,
        RECONNECT_DELAY_SEC :: (retryRun rest (attempt + 1) backoff).2) := by
  simp [retryRun, transientNetErr, h]

/-- Helper: one headerless 429 failure sleeps the current backoff, doubles it
capped at 1800 and leaves the attempt counter alone. -/
theorem retryRun_cons_429 (rest : List CallOutcome) (attempt backoff : Nat) :
    retryRun (CallOutcome.err rateLimitErr :: rest) attempt backoff =
      ((retryRun rest attempt (min (backoff * 2) 1800)).1,
        (backoff : ℚ) ::
          (retryRun rest attempt (min (backoff * 2) 1800)).2) := by
  simp [retryRun, rateLimitErr]

/-- Helper: a run of `k` transient errors within the retry budget sleeps the
fixed delay `k` times and continues with the attempt counter advanced. -/
theorem retryRun_transient_prefix (k : Nat) (l : List CallOutcome)
    (attempt backoff : Nat) (h : attempt + k ≤ MAX_NET_RETRIES) :
    retryRun (List.replicate k (CallOutcome.err transientNetErr) ++ l)
        attempt backoff =
      ((retryRun l (attempt + k) backoff).1,
        List.replicate k RECONNECT_DELAY_SEC ++
          (retryRun l (attempt + k) backoff).2) := by
  induction k generalizing attempt with
  | zero => simp
  | succ m ih =>
    have hcond : ¬ MAX_NET_RETRIES < attempt + 1 := by
      simp only [MAX_NET_RETRIES] at h ⊢; omega
    have harith : attempt + 1 + m = attempt + (m + 1) := by omega
    rw [List.replicate_succ, List.cons_append,
      retryRun_cons_transient _ _ _ hcond, ih (attempt + 1) (by omega), harith]
    simp [List.replicate_succ]

/-- Helper: a run of `k` headerless 429 errors sleeps `sleeps429` and doubles
the backoff `k` times, never touching the attempt counter. -/
theorem retryRun_429_prefix (k : Nat) (l : List CallOutcome)
    (attempt backoff : Nat) :
    retryRun (List.replicate k (CallOutcome.err rateLimitErr) ++ l)
        attempt backoff =
      ((retryRun l attempt (backoffIter backoff k)).1,
        sleeps429 backoff k ++
          (retryRun l attempt (backoffIter backoff k)).2) := by
  induction k generalizing backoff with
  | zero => simp [backoffIter, sleeps429]
  | succ m ih =>
    rw [List.replicate_succ, List.cons_append, retryRun_cons_429,
      ih (min (backoff * 2) 1800)]
    simp [backoffIter, sleeps429]

/-- Helper: one doubling step of the capped backoff. -/
theorem min_double (b i : Nat) :
    min (min (b * 2) 1800 * 2 ^ i) 1800 = min (b * 2 ^ (i + 1)) 1800 := by
  have h2 : 1 ≤ 2 ^ i := Nat.one_le_two_pow
  rcases le_total (b * 2) 1800 with h | h
  · rw [min_eq_left h, pow_succ]
    ring_nf
  · rw [min_eq_right h]
    have hL : 1800 ≤ 1800 * 2 ^ i := by nlinarith
    have hR : 1800 ≤ b * 2 ^ (i + 1) := by
      have : b * 2 ≤ b * 2 ^ (i + 1) := by
        rw [pow_succ]
        nlinarith
      omega
    rw [min_eq_right hL, min_eq_right hR]

/-- Helper: closed form of the sleeps of `k` headerless 429 retries starting
at backoff `b ≤ 1800`: the `i`-th sleep is `min (b * 2 ^ i) 1800`. -/
theorem sleeps429_closed (k : Nat) : ∀ b : Nat, b ≤ 1800 →
    sleeps429 b k =
      (List.range k).map (fun i => ((min (b * 2 ^ i) 1800 : Nat) : ℚ)) := by
  induction k with
  | zero => intro b _; simp [sleeps429]
  | succ m ih =>
    intro b hb
    rw [sleeps429, ih (min (b * 2) 1800) (min_le_right _ _),
      List.range_succ_eq_map]
    simp only [List.map_cons, List.map_map]
    congr 1
    · rw [pow_zero, mul_one, min_eq_left hb]
    · apply List.map_congr_left
      intro i _
      simp only [Function.comp_apply]
      rw [min_double]

/-- C5: the retry policy of `_retry_call`.  (1) An operation failing with a
transient-network error `k1 ≤ MAX_NET_RETRIES` times and then succeeding
completes successfully after `k1` sleeps of the fixed delay; (2) failing
transiently `MAX_NET_RETRIES + 1` times raises the terminal failure;
(3) an error that is neither transient nor a rate-limit signal propagates
immediately with no sleep and no further attempt; (4) a headerless 429 is
retried indefinitely — after any number `k2` of 429s a success still
completes — sleeping the default backoff which doubles up to the 1800s cap;
(5) a 429 carrying a Retry-After header sleeps the server-suggested value. -/
theorem retry_call_policy (v k1 k2 ra : Nat) (e : NetErr)
    (rest : List CallOutcome) (hk : k1 ≤ MAX_NET_RETRIES)
    (h429 : isRateLimitSignal e = false) (htr : e.isTransient = false) :
    retry_call (List.replicate k1 (CallOutcome.err transientNetErr) ++
        [CallOutcome.ok v]) =
      (RetryResult.ok v, List.replicate k1 RECONNECT_DELAY_SEC) ∧
    retry_call (List.replicate (MAX_NET_RETRIES + 1)
        (CallOutcome.err transientNetErr)) =
      (RetryResult.exhausted, List.replicate MAX_NET_RETRIES RECONNECT_DELAY_SEC) ∧
    retry_call (CallOutcome.err e :: rest) = (RetryResult.raised e, []) ∧
    retry_call (List.replicate k2 (CallOutcome.err rateLimitErr) ++
        [CallOutcome.ok v]) =
      (RetryResult.ok v,
        (List.range k2).map (fun i => ((min (60 * 2 ^ i) 1800 : Nat) : ℚ))) ∧
    retry_call [CallOutcome.err (rateLimitErrWith ra), CallOutcome.ok v] =
      (RetryResult.ok v, [(ra : ℚ)]) := by
  refine ⟨?_, ?_, ?_, ?_, ?_⟩
  · rw [retry_call, retryRun_transient_prefix k1 _ 0 60 (by omega)]
    simp [retryRun]
  · have h7 : List.replicate (MAX_NET_RETRIES + 1)
        (CallOutcome.err transientNetErr) =
        List.replicate MAX_NET_RETRIES (CallOutcome.err transientNetErr) ++
          [CallOutcome.err transientNetErr] := List.replicate_succ' _ _
    rw [retry_call, h7,
      retryRun_transient_prefix MAX_NET_RETRIES _ 0 60 (by omega)]
    simp [retryRun, transientNetErr, MAX_NET_RETRIES]
  · rw [retry_call, retryRun]
    have hb : (e.isApiErr && e.has429) = false := h429
    rw [hb, htr]
    simp
  · rw [retry_call, retryRun_429_prefix k2 _ 0 60,
      ← sleeps429_closed k2 60 (by omega)]
    simp [retryRun]
  · simp [retry_call, retryRun, rateLimitErrWith]

/-- Witness for `retry_call_policy` with two transient failures, three
rate-limited failures, a Retry-After of 7 and a plain error. -/
theorem retry_call_policy_witness :
    retry_call (List.replicate 2 (CallOutcome.err transientNetErr) ++
        [CallOutcome.ok 1]) =
      (RetryResult.ok 1, List.replicate 2 RECONNECT_DELAY_SEC) ∧
    retry_call (List.replicate (MAX_NET_RETRIES + 1)
        (CallOutcome.err transientNetErr)) =
      (RetryResult.exhausted, List.replicate MAX_NET_RETRIES RECONNECT_DELAY_SEC) ∧
    retry_call [CallOutcome.err ⟨false, false, false, none⟩] =
      (RetryResult.raised ⟨false, false, false, none⟩, []) ∧
    retry_call (List.replicate 3 (CallOutcome.err rateLimitErr) ++
        [CallOutcome.ok 1]) =
      (RetryResult.ok 1,
        (List.range 3).map (fun i => ((min (60 * 2 ^ i) 1800 : Nat) : ℚ))) ∧
    retry_call [CallOutcome.err (rateLimitErrWith 7), CallOutcome.ok 1] =
      (RetryResult.ok 1, [(7 : ℚ)]) := by
  have h := retry_call_policy 1 2 3 7 ⟨false, false, false, none⟩ []
    (by decide) (by decide) (by decide)
  exact h

/-! ## Theorems: inbound challenge admission -/

/-- C8: `acceptable_challenge` returns True exactly when, conjunctively, the
variant is standard (unless the variant check is disabled), the base time
meets the configured minimum, the challenge is rated or non-rated acceptance
is enabled, the challenger is a bot or human challengers are allowed, the
challenge targets this bot and was not issued by it, and its status is still
open (absent, "created" or "pending"); failing any one check declines. -/
theorem acceptable_challenge_iff (cfg : AdmissionConfig) (ch : Challenge) :
    acceptable_challenge cfg ch = true ↔
      ((cfg.acceptVariantStandard = true → ch.variantKey = some "standard") ∧
        cfg.acceptMinBaseSeconds ≤ ch.timeLimit.getD 0 ∧
        (ch.rated = true ∨ cfg.acceptNonrated = true) ∧
        (ch.challengerTitle = some "BOT" ∨ cfg.allowHumans = true) ∧
        (pyLower (ch.destId.getD "") = cfg.myBotId ∧
          pyLower (ch.challengerId.getD "") ≠ cfg.myBotId) ∧
        (pyLower (ch.status.getD "") = "" ∨
          pyLower (ch.status.getD "") = "created" ∨
          pyLower (ch.status.getD "") = "pending")) := by
  simp only [acceptable_challenge, Bool.if_false_left, Bool.if_true_right,
    Bool.and_eq_true, Bool.and_eq_false_iff, Bool.or_eq_true,
    Bool.or_eq_false_iff, Bool.not_eq_true', Bool.not_eq_false',
    beq_iff_eq, beq_eq_false_iff_ne, decide_eq_true_eq,
    decide_eq_false_iff_not, not_and, not_or, not_lt, not_not, ne_eq]
  constructor
  · rintro ⟨hv, hr, hlim, hbot, hid, hst⟩
    refine ⟨hv, hlim, ?_, ?_, ⟨hid.2, hid.1⟩, ?_⟩
    · rcases Bool.eq_false_or_eq_true cfg.acceptNonrated with h2 | h2
      · right; exact h2
      · left
        rcases Bool.eq_false_or_eq_true ch.rated with h3 | h3
        · exact h3
        · exact absurd h3 (hr h2)
    · rcases Bool.eq_false_or_eq_true cfg.allowHumans with h | h
      · right; exact h
      · left; exact hbot h
    · rcases hst with hs | hs
      · by_cases he : pyLower (ch.status.getD "") = ""
        · left; exact he
        · by_cases hc : pyLower (ch.status.getD "") = "created"
          · right; left; exact hc
          · right; right; exact hs he hc
      · exact absurd hs (by simp)
  · rintro ⟨hv, hlim, hr, hbot, ⟨hd, hc⟩, hst⟩
    refine ⟨hv, ?_, hlim, ?_, ⟨hc, hd⟩, ?_⟩
    · intro hn
      rcases hr with h | h
      · rw [h]; simp
      · rw [hn] at h; exact absurd h (by simp)
    · intro hh
      rcases hbot with h | h
      · exact h
      · rw [hh] at h; exact absurd h (by simp)
    · left
      intro hne hncr
      rcases hst with h | h | h
      · exact absurd h hne
      · exact absurd h hncr
      · exact h

/-- Witness instance: a fully conforming inbound challenge is accepted (via
`acceptable_challenge_iff`) and one below the minimum base time is declined
(default config values). -/
theorem acceptable_challenge_iff_witness :
    acceptable_challenge ⟨true, true, 300, true, "me"⟩
      ⟨some "standard", some 300, false, some "BOT", some "Opp", some "ME",
        some "created"⟩ = true ∧
    acceptable_challenge ⟨true, true, 300, true, "me"⟩
      ⟨some "standard", some 60, false, some "BOT", some "Opp", some "ME",
        some "created"⟩ = false :=
  ⟨(acceptable_challenge_iff ⟨true, true, 300, true, "me"⟩
      ⟨some "standard", some 300, false, some "BOT", some "Opp", some "ME",
        some "created"⟩).mpr (by decide), by decide⟩

/-! ## Theorems: FEN normalization -/

/-- Helper: splitting consumes one space-free token up to a separator. -/
theorem splitWSAux_token (tok : List Char) (hsp : ' ' ∉ tok) :
    ∀ (acc rest : List Char),
      splitWSAux (tok ++ ' ' :: rest) acc =
        if acc.reverse ++ tok = [] then splitWSAux rest []
        else (acc.reverse ++ tok) :: splitWSAux rest [] := by
  induction tok with
  | nil =>
    intro acc rest
    by_cases hacc : acc = []
    · subst hacc; simp [splitWSAux]
    · have : acc.reverse ≠ [] := by simpa using hacc
      simp [splitWSAux, hacc, this]
  | cons ch cs ih =>
    intro acc rest
    have hch : ¬ ch = ' ' := fun h => hsp (h ▸ List.mem_cons_self ch cs)
    have hsp2 : ' ' ∉ cs := fun h => hsp (List.mem_cons_of_mem ch h)
    have hne1 : acc.reverse ++ ch :: cs ≠ [] := by simp
    have hne2 : (ch :: acc).reverse ++ cs ≠ [] := by simp
    rw [List.cons_append, splitWSAux, if_neg hch, ih hsp2 (ch :: acc) rest,
      if_neg hne2, if_neg hne1]
    congr 1
    rw [List.reverse_cons, List.append_assoc, List.singleton_append]

/-- Helper: splitting a final space-free token. -/
theorem splitWSAux_last (tok : List Char) (hsp : ' ' ∉ tok) :
    ∀ acc : List Char,
      splitWSAux tok acc =
        if acc.reverse ++ tok = [] then [] else [acc.reverse ++ tok] := by
  induction tok with
  | nil =>
    intro acc
    by_cases hacc : acc = []
    · subst hacc; simp [splitWSAux]
    · have : acc.reverse ≠ [] := by simpa using hacc
      simp [splitWSAux, hacc, this]
  | cons ch cs ih =>
    intro acc
    have hch : ¬ ch = ' ' := fun h => hsp (h ▸ List.mem_cons_self ch cs)
    have hsp2 : ' ' ∉ cs := fun h => hsp (List.mem_cons_of_mem ch h)
    have hne1 : acc.reverse ++ ch :: cs ≠ [] := by simp
    have hne2 : (ch :: acc).reverse ++ cs ≠ [] := by simp
    rw [splitWSAux, if_neg hch, ih hsp2 (ch :: acc), if_neg hne2, if_neg hne1]
    have hrc : (ch :: acc).reverse ++ cs = acc.reverse ++ ch :: cs := by
      rw [List.reverse_cons, List.append_assoc, List.singleton_append]
    rw [hrc]

/-- Helper: a nonempty space-free token followed by a space splits off. -/
theorem splitWS_token (tok rest : List Char) (hne : tok ≠ [])
    (hsp : ' ' ∉ tok) :
    splitWS (tok ++ ' ' :: rest) = tok :: splitWS rest := by
  unfold splitWS
  rw [splitWSAux_token tok hsp [] rest]
  simp [hne]

/-- Helper: a single nonempty space-free token splits to itself. -/
theorem splitWS_one (tok : List Char) (hne : tok ≠ []) (hsp : ' ' ∉ tok) :
    splitWS tok = [tok] := by
  unfold splitWS
  rw [splitWSAux_last tok hsp []]
  simp [hne]

/-- Helper: normalization of a joined FEN whose first four fields are
nonempty space-free tokens keeps those fields (with the en-passant field
sanitized) and drops everything after them. -/
theorem normalize_fen_join (b t c ep : List Char) (rest : List (List Char))
    (hb : b ≠ []) (hbs : ' ' ∉ b) (ht : t ≠ []) (hts : ' ' ∉ t)
    (hc : c ≠ []) (hcs : ' ' ∉ c) (hep : ep ≠ []) (heps : ' ' ∉ ep) :
    normalize_fen (joinSpace (b :: t :: c :: ep :: rest)) =
      some (joinSpace [b, t, c,
        if ep ≠ ['-'] ∧ validEp ep = false then ['-'] else ep]) := by
  cases rest with
  | nil =>
    have hj : joinSpace [b, t, c, ep] =
        b ++ ' ' :: (t ++ ' ' :: (c ++ ' ' :: ep)) := by
      simp [joinSpace]
    simp only [normalize_fen, hj, splitWS_token b _ hb hbs,
      splitWS_token t _ ht hts, splitWS_token c _ hc hcs,
      splitWS_one ep hep heps]
  | cons r rs =>
    have hj : joinSpace (b :: t :: c :: ep :: r :: rs) =
        b ++ ' ' :: (t ++ ' ' :: (c ++ ' ' :: (ep ++ ' ' ::
          joinSpace (r :: rs)))) := by
      simp [joinSpace]
    simp only [normalize_fen, hj, splitWS_token b _ hb hbs,
      splitWS_token t _ ht hts, splitWS_token c _ hc hcs,
      splitWS_token ep _ hep heps]

/-- C6: `normalize_fen` is deterministic; two FENs (with nonempty space-free
board, turn, castling and en-passant fields) that differ only in the halfmove
clock and fullmove number fields produce identical keys; and an en-passant
field that is neither "-" nor a square of file a-h and rank 3 or 6 is
replaced by "-" before keying. -/
theorem normalize_fen_spec (b t c ep h1 m1 h2 m2 : List Char)
    (hb : b ≠ []) (hbs : ' ' ∉ b) (ht : t ≠ []) (hts : ' ' ∉ t)
    (hc : c ≠ []) (hcs : ' ' ∉ c) (hep : ep ≠ []) (heps : ' ' ∉ ep) :
    (∀ f g : List Char, f = g → normalize_fen f = normalize_fen g) ∧
    normalize_fen (joinSpace [b, t, c, ep, h1, m1]) =
      normalize_fen (joinSpace [b, t, c, ep, h2, m2]) ∧
    (ep ≠ ['-'] → validEp ep = false →
      normalize_fen (joinSpace [b, t, c, ep, h1, m1]) =
        some (joinSpace [b, t, c, ['-']])) := by
  refine ⟨fun f g hfg => by rw [hfg], ?_, ?_⟩
  · rw [normalize_fen_join b t c ep [h1, m1] hb hbs ht hts hc hcs hep heps,
      normalize_fen_join b t c ep [h2, m2] hb hbs ht hts hc hcs hep heps]
  · intro hne hval
    rw [normalize_fen_join b t c ep [h1, m1] hb hbs ht hts hc hcs hep heps,
      if_pos ⟨hne, hval⟩]

/-- Witness for `normalize_fen_spec` on a FEN with the invalid en-passant
square e4. -/
theorem normalize_fen_spec_witness :
    (∀ f g : List Char, f = g → normalize_fen f = normalize_fen g) ∧
    normalize_fen (joinSpace [['r'], ['w'], ['K'], ['e', '4'], ['0'], ['1']]) =
      normalize_fen (joinSpace [['r'], ['w'], ['K'], ['e', '4'], ['4'], ['9']]) ∧
    (['e', '4'] ≠ ['-'] → validEp ['e', '4'] = false →
      normalize_fen (joinSpace [['r'], ['w'], ['K'], ['e', '4'], ['0'], ['1']]) =
        some (joinSpace [['r'], ['w'], ['K'], ['-']])) :=
  normalize_fen_spec ['r'] ['w'] ['K'] ['e', '4'] ['0'] ['1'] ['4'] ['9']
    (by decide) (by decide) (by decide) (by decide) (by decide) (by decide)
    (by decide) (by decide)

/-! ## Theorems: multi-book move chooser -/

/-- Helper: the UCI order is irreflexive. -/
theorem uciLt_irrefl (a : List Char) : uciLt a a = false := by
  induction a with
  | nil => rfl
  | cons x xs ih => simp [uciLt, ih]

/-- Helper: the UCI order is transitive. -/
theorem uciLt_trans (a b c : List Char) (h1 : uciLt a b = true)
    (h2 : uciLt b c = true) : uciLt a c = true := by
  induction a generalizing b c with
  | nil =>
    cases b with
    | nil => simp [uciLt] at h1
    | cons y ys =>
      cases c with
      | nil => simp [uciLt] at h2
      | cons z zs => simp [uciLt]
  | cons x xs ih =>
    cases b with
    | nil => simp [uciLt] at h1
    | cons y ys =>
      cases c with
      | nil => simp [uciLt] at h2
      | cons z zs =>
        by_cases hxy : x < y
        · by_cases hyz : y < z
          · have hxz : x < z := lt_trans hxy hyz
            simp [uciLt, hxz]
          · by_cases hzy : z < y
            · simp [uciLt, hyz, hzy] at h2
            · have hyzeq : y = z := le_antisymm (not_lt.mp hzy) (not_lt.mp hyz)
              subst hyzeq
              simp [uciLt, hxy]
        · by_cases hyx : y < x
          · simp [uciLt, hxy, hyx] at h1
          · have hxyeq : x = y := le_antisymm (not_lt.mp hyx) (not_lt.mp hxy)
            subst hxyeq
            simp only [uciLt, lt_irrefl, if_false] at h1
            by_cases hxz : x < z
            · simp [uciLt, hxz]
            · by_cases hzx : z < x
              · simp [uciLt, hxz, hzx] at h2
              · have hxzeq : x = z := le_antisymm (not_lt.mp hzx) (not_lt.mp hxz)
                subst hxzeq
                simp only [uciLt, lt_irrefl, if_false] at h2 ⊢
                exact ih ys zs h1 h2

/-- Helper: the UCI order is total up to equality. -/
theorem uciLt_total (a b : List Char) :
    uciLt a b = true ∨ uciLt b a = true ∨ a = b := by
  induction a generalizing b with
  | nil =>
    cases b with
    | nil => right; right; rfl
    | cons y ys => left; rfl
  | cons x xs ih =>
    cases b with
    | nil => right; left; rfl
    | cons y ys =>
      rcases lt_trichotomy x y with h | h | h
      · left; simp [uciLt, h]
      · subst h
        rcases ih ys with h2 | h2 | h2
        · left; simp [uciLt, lt_irrefl, h2]
        · right; left; simp [uciLt, lt_irrefl, h2]
        · right; right; rw [h2]
      · right; left; simp [uciLt, h]

/-- Helper: the sort key comparison is irreflexive. -/
theorem keyLtB_irrefl (a : Int × Nat × Uci) : keyLtB a a = false := by
  simp [keyLtB, uciLt_irrefl]

/-- Helper: the sort key comparison is transitive. -/
theorem keyLtB_trans (a b c : Int × Nat × Uci) (h1 : keyLtB a b = true)
    (h2 : keyLtB b c = true) : keyLtB a c = true := by
  simp only [keyLtB, Bool.or_eq_true, Bool.and_eq_true,
    decide_eq_true_eq] at h1 h2 ⊢
  rcases h1 with h1 | ⟨h1e, h1r⟩
  · rcases h2 with h2 | ⟨h2e, _⟩
    · left; omega
    · left; omega
  · rcases h2 with h2 | ⟨h2e, h2r⟩
    · left; omega
    · right
      refine ⟨by omega, ?_⟩
      rcases h1r with h1 | ⟨h1e2, h1u⟩
      · rcases h2r with h2 | ⟨h2e2, _⟩
        · left; omega
        · left; omega
      · rcases h2r with h2 | ⟨h2e2, h2u⟩
        · left; omega
        · right
          exact ⟨by omega, uciLt_trans _ _ _ h1u h2u⟩

/-- Helper: the sort key comparison is total up to equality. -/
theorem keyLtB_total (a b : Int × Nat × Uci) :
    keyLtB a b = true ∨ keyLtB b a = true ∨ a = b := by
  simp only [keyLtB, Bool.or_eq_true, Bool.and_eq_true, decide_eq_true_eq]
  rcases lt_trichotomy a.1 b.1 with h | h | h
  · right; left; left; exact h
  · rcases lt_trichotomy a.2.1 b.2.1 with h2 | h2 | h2
    · left; right; exact ⟨h, Or.inl h2⟩
    · rcases uciLt_total a.2.2 b.2.2 with h3 | h3 | h3
      · left; right; exact ⟨h, Or.inr ⟨h2, h3⟩⟩
      · right; left; right; exact ⟨h.symm, Or.inr ⟨h2.symm, h3⟩⟩
      · right; right
        exact Prod.ext h (Prod.ext h2 h3)
    · right; left; right; exact ⟨h.symm, Or.inl h2⟩
  · left; left; exact h

/-- Helper: the running-minimum fold returns an element of the input whose
key no other element strictly precedes. -/
theorem foldMin_spec (xs : List (Uci × Int × Nat)) (b : Uci × Int × Nat) :
    (xs.foldl (fun best e => if keyLtB (ckey e) (ckey best) then e
        else best) b = b ∨
      xs.foldl (fun best e => if keyLtB (ckey e) (ckey best) then e
        else best) b ∈ xs) ∧
    keyLtB (ckey b) (ckey (xs.foldl (fun best e =>
      if keyLtB (ckey e) (ckey best) then e else best) b)) = false ∧
    ∀ x ∈ xs, keyLtB (ckey x) (ckey (xs.foldl (fun best e =>
      if keyLtB (ckey e) (ckey best) then e else best) b)) = false := by
  induction xs generalizing b with
  | nil => simp [keyLtB_irrefl]
  | cons e rest ih =>
    rw [List.foldl_cons]
    obtain ⟨hmem, hb2, hall⟩ := ih (if keyLtB (ckey e) (ckey b) then e else b)
    set r := rest.foldl (fun best e =>
      if keyLtB (ckey e) (ckey best) then e else best)
      (if keyLtB (ckey e) (ckey b) then e else b) with hr
    by_cases hc : keyLtB (ckey e) (ckey b) = true
    · rw [if_pos hc] at hmem hb2
      refine ⟨?_, ?_, ?_⟩
      · rcases hmem with h | h
        · right; rw [h]; exact List.mem_cons_self e rest
        · right; exact List.mem_cons_of_mem e h
      · cases hbr : keyLtB (ckey b) (ckey r) with
        | false => rfl
        | true => rw [keyLtB_trans _ _ _ hc hbr] at hb2; exact hb2
      · intro x hx
        rcases List.mem_cons.mp hx with h | h
        · rw [h]; exact hb2
        · exact hall x h
    · rw [if_neg hc] at hmem hb2
      have hcf : keyLtB (ckey e) (ckey b) = false := by
        revert hc; cases keyLtB (ckey e) (ckey b) <;> simp
      refine ⟨?_, hb2, ?_⟩
      · rcases hmem with h | h
        · left; exact h
        · right; exact List.mem_cons_of_mem e h
      · intro x hx
        rcases List.mem_cons.mp hx with h | h
        · subst h
          cases her : keyLtB (ckey x) (ckey r) with
          | false => rfl
          | true =>
            rcases keyLtB_total (ckey b) (ckey x) with hbx | hxb | hbx
            · have htr := keyLtB_trans _ _ _ hbx her
              rw [hb2] at htr
              exact (Bool.false_ne_true htr).elim
            · rw [hcf] at hxb
              exact (Bool.false_ne_true hxb).elim
            · rw [hbx] at hb2
              rw [hb2] at her
              exact (Bool.false_ne_true her).elim
        · exact hall x h

/-- Helper: `pickBest` returns an entry of the candidate list whose key no
other entry strictly precedes. -/
theorem pickBest_spec (l : List (Uci × Int × Nat)) (e : Uci × Int × Nat)
    (h : pickBest l = some e) :
    e ∈ l ∧ ∀ x ∈ l, keyLtB (ckey x) (ckey e) = false := by
  cases l with
  | nil => simp [pickBest] at h
  | cons x xs =>
    simp only [pickBest, Option.some_inj] at h
    obtain ⟨hmem, hb, hall⟩ := foldMin_spec xs x
    rw [h] at hmem hb hall
    constructor
    · rcases hmem with h2 | h2
      · rw [h2]; exact List.mem_cons_self x xs
      · exact List.mem_cons_of_mem x h2
    · intro y hy
      rcases List.mem_cons.mp hy with h2 | h2
      · rw [h2]; exact hb
      · exact hall y h2

/-- Helper: one `candInsert` step preserves the dict invariant — keys are
distinct, every entry is the (max weight, first book at that weight) view of
its move over the processed triples, and every processed move has an entry. -/
theorem candInsert_inv (L : List (Uci × Int × Nat))
    (cands : List (Uci × Int × Nat))
    (hnd : (cands.map (fun e => e.1)).Nodup)
    (hbest : ∀ e ∈ cands, bestCand L e.1 e.2.1 e.2.2)
    (hcompl : ∀ s ∈ L, ∃ w2 i2, (s.1, w2, i2) ∈ cands)
    (u : Uci) (w : Int) (i : Nat) :
    ((candInsert cands u w i).map (fun e => e.1)).Nodup ∧
    (∀ e ∈ candInsert cands u w i,
      bestCand (L ++ [(u, w, i)]) e.1 e.2.1 e.2.2) ∧
    (∀ s ∈ L ++ [(u, w, i)],
      ∃ w2 i2, (s.1, w2, i2) ∈ candInsert cands u w i) := by
  cases hf : cands.find? (fun e => e.1 == u) with
  | none =>
    have hred : candInsert cands u w i = cands ++ [(u, w, i)] := by
      unfold candInsert
      rw [hf]
    rw [hred]
    have hnou : ∀ e ∈ cands, e.1 ≠ u := by
      intro e he
      have := List.find?_eq_none.mp hf e he
      simpa using this
    have hnoL : ∀ w' i', (u, w', i') ∉ L := by
      intro w' i' hmem
      obtain ⟨w2, i2, hin⟩ := hcompl (u, w', i') hmem
      exact hnou _ hin rfl
    refine ⟨?_, ?_, ?_⟩
    · rw [List.map_append, List.nodup_append]
      refine ⟨hnd, List.nodup_singleton u, ?_⟩
      intro a ha hb
      simp only [List.map_cons, List.map_nil, List.mem_singleton] at hb
      subst hb
      obtain ⟨e, he, hek⟩ := List.mem_map.mp ha
      exact hnou e he hek
    · intro e he
      rcases List.mem_append.mp he with he | he
      · obtain ⟨hm, hmax⟩ := hbest e he
        refine ⟨List.mem_append_left _ hm, ?_⟩
        intro w' i' hmem
        rcases List.mem_append.mp hmem with hmem | hmem
        · exact hmax w' i' hmem
        · simp only [List.mem_singleton, Prod.mk.injEq] at hmem
          exact absurd hmem.1 (hnou e he)
      · simp only [List.mem_singleton] at he
        subst he
        refine ⟨List.mem_append_right _ (by simp), ?_⟩
        intro w' i' hmem
        rcases List.mem_append.mp hmem with hmem | hmem
        · exact absurd hmem (hnoL w' i')
        · simp only [List.mem_singleton, Prod.mk.injEq] at hmem
          right
          exact ⟨hmem.2.1, le_of_eq hmem.2.2.symm⟩
    · intro s hs
      rcases List.mem_append.mp hs with hs | hs
      · obtain ⟨w2, i2, hin⟩ := hcompl s hs
        exact ⟨w2, i2, List.mem_append_left _ hin⟩
      · simp only [List.mem_singleton] at hs
        subst hs
        exact ⟨w, i, List.mem_append_right _ (by simp)⟩
  | some c =>
    have hcmem : c ∈ cands := List.mem_of_find?_eq_some hf
    have hck : c.1 = u := by
      have := List.find?_some hf
      simpa using this
    have hred : candInsert cands u w i =
        if c.2.1 < w ∨ (w = c.2.1 ∧ i < c.2.2) then
          cands.map (fun e => if e.1 == u then (u, w, i) else e)
        else cands := by
      unfold candInsert
      rw [hf]
    by_cases hcond : c.2.1 < w ∨ (w = c.2.1 ∧ i < c.2.2)
    · rw [hred, if_pos hcond]
      have hkeys : ∀ e : Uci × Int × Nat,
          ((if e.1 == u then (u, w, i) else e) : Uci × Int × Nat).1 = e.1 := by
        intro e
        by_cases h : e.1 = u
        · simp [h]
        · simp [h]
      have hmapkeys : ((cands.map (fun e => if e.1 == u then (u, w, i)
          else e)).map (fun e => e.1)) = cands.map (fun e => e.1) := by
        rw [List.map_map]
        exact List.map_congr_left (fun e _ => hkeys e)
      refine ⟨?_, ?_, ?_⟩
      · rw [hmapkeys]; exact hnd
      · intro e' he'
        obtain ⟨e, he, hge⟩ := List.mem_map.mp he'
        by_cases hkey : e.1 = u
        · have hec : e = c :=
            List.inj_on_of_nodup_map hnd he hcmem (by rw [hkey, hck])
          have hge2 : e' = (u, w, i) := by
            rw [← hge]; simp [hkey]
          subst hge2
          obtain ⟨hm, hmax⟩ := hbest c hcmem
          refine ⟨List.mem_append_right _ (by simp), ?_⟩
          intro w' i' hmem
          rcases List.mem_append.mp hmem with hmem | hmem
          · have := hmax w' i' (by rw [hck]; exact hmem)
            dsimp only
            omega
          · simp only [List.mem_singleton, Prod.mk.injEq] at hmem
            dsimp only
            omega
        · have hge2 : e' = e := by
            rw [← hge]; simp [hkey]
          rw [hge2]
          obtain ⟨hm, hmax⟩ := hbest e he
          refine ⟨List.mem_append_left _ hm, ?_⟩
          intro w' i' hmem
          rcases List.mem_append.mp hmem with hmem | hmem
          · exact hmax w' i' hmem
          · simp only [List.mem_singleton, Prod.mk.injEq] at hmem
            exact absurd hmem.1 hkey
      · intro s hs
        rcases List.mem_append.mp hs with hs | hs
        · obtain ⟨w2, i2, hin⟩ := hcompl s hs
          have hmm : (if ((s.1, w2, i2) : Uci × Int × Nat).1 == u then
              ((u, w, i) : Uci × Int × Nat) else (s.1, w2, i2)) ∈
              cands.map (fun e => if e.1 == u then (u, w, i) else e) :=
            List.mem_map_of_mem _ hin
          by_cases hsu : s.1 = u
          · refine ⟨w, i, ?_⟩
            rw [hsu]
            simpa [hsu] using hmm
          · refine ⟨w2, i2, ?_⟩
            simpa [hsu] using hmm
        · simp only [List.mem_singleton] at hs
          subst hs
          refine ⟨w, i, ?_⟩
          have hgc : (if c.1 == u then ((u, w, i) : Uci × Int × Nat) else c)
              = (u, w, i) := by simp [hck]
          have hmem2 := List.mem_map_of_mem
            (fun e => if e.1 == u then ((u, w, i) : Uci × Int × Nat) else e)
            hcmem
          dsimp only at hmem2 ⊢
          rw [hgc] at hmem2
          exact hmem2
    · rw [hred, if_neg hcond]
      refine ⟨hnd, ?_, ?_⟩
      · intro e he
        obtain ⟨hm, hmax⟩ := hbest e he
        refine ⟨List.mem_append_left _ hm, ?_⟩
        intro w' i' hmem
        rcases List.mem_append.mp hmem with hmem | hmem
        · exact hmax w' i' hmem
        · simp only [List.mem_singleton, Prod.mk.injEq] at hmem
          have hec : e = c :=
            List.inj_on_of_nodup_map hnd he hcmem (by rw [hmem.1, hck])
          subst hec
          omega
      · intro s hs
        rcases List.mem_append.mp hs with hs | hs
        · exact hcompl s hs
        · simp only [List.mem_singleton] at hs
          subst hs
          refine ⟨c.2.1, c.2.2, ?_⟩
          have : ((u, c.2.1, c.2.2) : Uci × Int × Nat) = c := by
            rw [← hck]
          rw [this]
          exact hcmem

/-- Helper: the candidates dict of the best_move policy satisfies the dict
invariant over all triples of all books. -/
theorem candsOfBooks_inv (L : List (Uci × Int × Nat)) :
    ((L.foldl (fun cs t => candInsert cs t.1 t.2.1 t.2.2) []).map
      (fun e => e.1)).Nodup ∧
    (∀ e ∈ L.foldl (fun cs t => candInsert cs t.1 t.2.1 t.2.2) [],
      bestCand L e.1 e.2.1 e.2.2) ∧
    (∀ s ∈ L, ∃ w2 i2, (s.1, w2, i2) ∈
      L.foldl (fun cs t => candInsert cs t.1 t.2.1 t.2.2) []) := by
  induction L using List.reverseRecOn with
  | nil => simp [bestCand]
  | append_singleton L t ih =>
    rw [List.foldl_append]
    simp only [List.foldl_cons, List.foldl_nil]
    obtain ⟨hnd, hbest, hcompl⟩ := ih
    exact candInsert_inv L _ hnd hbest hcompl t.1 t.2.1 t.2.2

/-- Helper: the (max weight, first book at that weight) view of a move is
unique. -/
theorem bestCand_unique (L : List (Uci × Int × Nat)) (u : Uci)
    (w1 w2 : Int) (i1 i2 : Nat) (h1 : bestCand L u w1 i1)
    (h2 : bestCand L u w2 i2) : w1 = w2 ∧ i1 = i2 := by
  obtain ⟨m1, a1⟩ := h1
  obtain ⟨m2, a2⟩ := h2
  have x1 := a1 w2 i2 m2
  have x2 := a2 w1 i1 m1
  omega

/-- C7: under the best_move policy, when `_find_book_move` returns a move it
is a move offered by some consulted book, carrying the maximum weight seen
for it across all books with the earliest contributing book index, and its
sort key (weight descending, then book position, then UCI encoding) precedes
that of every other offered move's reduced view; concretely, with book A
offering x at weight 10 and book B offering y at weight 20 the chooser
returns y, and with a weight-15 tie between x from book A (index 0) and y
from book B (index 1) it returns x. -/
theorem find_book_move_spec (books : List Book) (u : Uci)
    (h : _find_book_move books = some u) :
    (∃ w i, bestCand (bookTriples books) u w i ∧
      ∀ u2 w2 i2, bestCand (bookTriples books) u2 w2 i2 →
        keyLtB (w2, i2, u2) (w, i, u) = false) ∧
    _find_book_move [[(['x'], 10)], [(['y'], 20)]] = some ['y'] ∧
    _find_book_move [[(['x'], 15)], [(['y'], 15)]] = some ['x'] := by
  refine ⟨?_, by decide, by decide⟩
  obtain ⟨e, he, heu⟩ := Option.map_eq_some'.mp h
  obtain ⟨hmem, hmin⟩ := pickBest_spec _ e he
  obtain ⟨hnd, hbest, hcompl⟩ := candsOfBooks_inv (bookTriples books)
  refine ⟨e.2.1, e.2.2, ?_, ?_⟩
  · have := hbest e hmem
    rw [heu] at this
    exact this
  · intro u2 w2 i2 hb2
    obtain ⟨w3, i3, hin3⟩ := hcompl (u2, w2, i2) hb2.1
    have hb3 := hbest _ hin3
    obtain ⟨hw, hi⟩ := bestCand_unique _ _ _ _ _ _ hb3 hb2
    have hkm := hmin _ hin3
    simp only [ckey] at hkm
    dsimp only at hw hi hkm
    rw [hw, hi] at hkm
    rw [← heu]
    exact hkm

/-- Witness for `find_book_move_spec` with one book offering two moves. -/
theorem find_book_move_spec_witness :
    ((∃ w i, bestCand (bookTriples [[(['a'], 3), (['b'], 7)]]) ['b'] w i ∧
      ∀ u2 w2 i2, bestCand (bookTriples [[(['a'], 3), (['b'], 7)]]) u2 w2 i2 →
        keyLtB (w2, i2, u2) (w, i, ['b']) = false) ∧
    _find_book_move [[(['x'], 10)], [(['y'], 20)]] = some ['y'] ∧
    _find_book_move [[(['x'], 15)], [(['y'], 15)]] = some ['x']) :=
  find_book_move_spec [[(['a'], 3), (['b'], 7)]] ['b'] (by decide)

/-! ## Theorems: move decision pipeline -/

/-- C9: with at most 2000ms (2s) on the clock the pipeline takes the
ultra-panic branch: a successful tiny-node probe is played; a raising probe
falls back to the first legal move; with no legal move the game is resigned;
and no later pipeline step (hard panic, book, endgame table, normal search)
is ever invoked. -/
theorem safe_make_move_ultra (ms : Int) (env : MoveEnv) (h : ms ≤ 2000) :
    (∀ m, env.probeTiny = some (some m) →
      safe_make_move (some ms) env = MoveAction.micro "ultra" m) ∧
    (∀ m rest, env.probeTiny = none → env.legalMoves = m :: rest →
      safe_make_move (some ms) env = MoveAction.micro "ultra" m) ∧
    (env.probeTiny = none → env.legalMoves = [] →
      safe_make_move (some ms) env = MoveAction.resignNoMove "ultra") ∧
    (∀ m, safe_make_move (some ms) env ≠ MoveAction.panic m ∧
      safe_make_move (some ms) env ≠ MoveAction.book m ∧
      safe_make_move (some ms) env ≠ MoveAction.table m ∧
      safe_make_move (some ms) env ≠ MoveAction.search m) ∧
    safe_make_move (some ms) env ≠ MoveAction.resignNoSearchMove := by
  have hsec : max 0 ((ms : ℚ) / 1000) ≤ 2 := by
    have : (ms : ℚ) ≤ 2000 := by exact_mod_cast h
    apply max_le <;> linarith
  have hred : safe_make_move (some ms) env = _micro_fallback_move env "ultra" := by
    simp only [safe_make_move]
    rw [decide_eq_true hsec]
    simp
  refine ⟨?_, ?_, ?_, ?_, ?_⟩
  · intro m hm
    rw [hred]
    simp [_micro_fallback_move, hm]
  · intro m rest hp hl
    rw [hred]
    simp [_micro_fallback_move, hp, hl]
  · intro hp hl
    rw [hred]
    simp [_micro_fallback_move, hp, hl]
  · intro m
    rw [hred]
    unfold _micro_fallback_move
    rcases hmv : (match env.probeTiny with
      | some r => r
      | none => env.legalMoves.head?) with _ | mv <;> simp [hmv]
  · rw [hred]
    unfold _micro_fallback_move
    rcases hmv : (match env.probeTiny with
      | some r => r
      | none => env.legalMoves.head?) with _ | mv <;> simp [hmv]

/-- Witness for `safe_make_move_ultra` at 1500ms remaining with a successful
tiny probe. -/
theorem safe_make_move_ultra_witness :
    (∀ m, (⟨some (some "e2e4"), none, ["a2a3"], 4, none, none, none⟩ :
        MoveEnv).probeTiny = some (some m) →
      safe_make_move (some 1500)
        ⟨some (some "e2e4"), none, ["a2a3"], 4, none, none, none⟩ =
          MoveAction.micro "ultra" m) ∧
    (∀ m rest, (⟨some (some "e2e4"), none, ["a2a3"], 4, none, none, none⟩ :
        MoveEnv).probeTiny = none →
      (⟨some (some "e2e4"), none, ["a2a3"], 4, none, none, none⟩ :
        MoveEnv).legalMoves = m :: rest →
      safe_make_move (some 1500)
        ⟨some (some "e2e4"), none, ["a2a3"], 4, none, none, none⟩ =
          MoveAction.micro "ultra" m) ∧
    ((⟨some (some "e2e4"), none, ["a2a3"], 4, none, none, none⟩ :
        MoveEnv).probeTiny = none →
      (⟨some (some "e2e4"), none, ["a2a3"], 4, none, none, none⟩ :
        MoveEnv).legalMoves = [] →
      safe_make_move (some 1500)
        ⟨some (some "e2e4"), none, ["a2a3"], 4, none, none, none⟩ =
          MoveAction.resignNoMove "ultra") ∧
    (∀ m, safe_make_move (some 1500)
        ⟨some (some "e2e4"), none, ["a2a3"], 4, none, none, none⟩ ≠
          MoveAction.panic m ∧
      safe_make_move (some 1500)
        ⟨some (some "e2e4"), none, ["a2a3"], 4, none, none, none⟩ ≠
          MoveAction.book m ∧
      safe_make_move (some 1500)
        ⟨some (some "e2e4"), none, ["a2a3"], 4, none, none, none⟩ ≠
          MoveAction.table m ∧
      safe_make_move (some 1500)
        ⟨some (some "e2e4"), none, ["a2a3"], 4, none, none, none⟩ ≠
          MoveAction.search m) ∧
    safe_make_move (some 1500)
      ⟨some (some "e2e4"), none, ["a2a3"], 4, none, none, none⟩ ≠
        MoveAction.resignNoSearchMove :=
  safe_make_move_ultra 1500
    ⟨some (some "e2e4"), none, ["a2a3"], 4, none, none, none⟩ (by norm_num)

/-! ## Theorems: outgoing-challenge bookkeeping -/

/-- C4 evaluation: the outgoing-dispatch path performs no bookkeeping at all —
after any dispatch the registries are unchanged, and concretely, starting
from empty registries, dispatching a challenge to an opponent leaves the
pending-challenge registry and the last-challenged map empty, so an
immediately following `should_challenge` for the same opponent still returns
True instead of the specified False. -/
theorem challenge_bookkeeping_gap :
    (∀ (st : OutState) (u : String) (now : ℚ) (r : Bool),
      dispatch_challenge st u now r = st) ∧
    should_challenge ⟨[], []⟩ "ToromBot" 1000 true = true ∧
    dispatch_challenge ⟨[], []⟩ "ToromBot" 1000 true = ⟨[], []⟩ ∧
    should_challenge (dispatch_challenge ⟨[], []⟩ "ToromBot" 1000 true)
      "ToromBot" 1010 true = true := by
  refine ⟨?_, by decide, by decide, by decide⟩
  intro st u now r
  unfold dispatch_challenge challenge_bot
  split <;> rfl

end ICBMBot
